import Mathlib

/-!
Shallow embedding of the file-index core of the `search` repository
(`src/filesystem.rs` and the sort-header handlers of `src/main.rs`).

Modelling conventions:
* Rust `usize`/`u64` values are `Nat`; `usize::MAX` is the constant `usizeMax`.
  Overflow/wrapping is made explicit at the places the source can wrap.
* Strings (`Box<str>`, `&str`) are `List Char`; `str::to_lowercase` /
  `to_ascii_lowercase` are modelled by mapping `Char.toLower` (exact for the
  ASCII range); `str::trim_end` drops trailing whitespace characters.
* `path.file_name()` (an external `std` call) is modelled by passing the
  operation the already-extracted final component, `Option (List Char)`:
  `none` when the path has no file-name component.
* Fallible/panicking code paths (out-of-bounds indexing, `unwrap`,
  `todo!()`) return `Option`: `none` models a Rust panic.
* `Vec::swap_remove`, the position-map growth loop, and the
  `binary_search`+`remove` on the sorted `shown` vector are modelled by the
  helpers `swapRemove`, `extendPM` and `binRemove` below, each commented
  against the source.
* `par_sort_unstable_by cmp` produces some permutation sorted by `cmp`; it is
  modelled deterministically by `List.mergeSort` with the source's comparator.
-/

/-- The sentinel `usize::MAX` used by the source for "no entry". -/
def usizeMax : Nat := 2 ^ 64 - 1

/-- Rust's `isize::MAX`: a `Vec` can never hold more elements; `Vec::push`
aborts the process on capacity overflow beyond it. -/
def isizeMax : Nat := 2 ^ 63 - 1

/-- Models Rust `str::to_lowercase` on the stored names (exact on ASCII). -/
def toLowerL (s : List Char) : List Char := s.map Char.toLower

/-- Models Rust `str::to_ascii_lowercase` used on queries. -/
def toAsciiLowerL (s : List Char) : List Char := s.map Char.toLower

/-- Models Rust `str::trim_end`: remove trailing whitespace. -/
def trimEndL (s : List Char) : List Char :=
  (s.reverse.dropWhile (fun c => c.isWhitespace)).reverse

/-- Whether `q` occurs at the start of `s` (helper for substring search). -/
def startsWithL : (q s : List Char) → Bool
  | [], _ => true
  | _ :: _, [] => false
  | a :: as, b :: bs => if a = b then startsWithL as bs else false

/-- Models Rust `str::contains`: `containsL s q` holds iff `q` is a
contiguous substring of `s` (including the empty substring). -/
def containsL : (s q : List Char) → Bool
  | s, q =>
    startsWithL q s ||
      match s with
      | [] => false
      | _ :: t => containsL t q

/-- Little-endian value of a byte list: models `u64::from_le_bytes`. -/
def leBytes : List Nat → Nat
  | [] => 0
  | b :: bs => b + 256 * leBytes bs

/-- Models the `FILE_ID_128` payload of `ntfs_reader`'s extended file ids:
a 16-byte little-endian identifier (`Identifier : [u8; 16]`). -/
structure FileId128 where
  Identifier : List Nat
deriving DecidableEq

/-- Models `ntfs_reader::journal::FileId`. -/
inductive FileId where
  | Normal (file_id : Nat)
  | Extended (file_id_128 : FileId128)
deriving DecidableEq

/-- Models `file_id_to_frn` (src/filesystem.rs:9-20): mask the low 48 bits of
a 64-bit id, or assemble the low 6 bytes of a 128-bit id little-endian into a
zero-padded 8-byte word. -/
def fileIdToFrn : FileId → Nat
  | .Normal file_id => file_id &&& 0x0000FFFFFFFFFFFF
  | .Extended file_id_128 => leBytes (file_id_128.Identifier.take 6 ++ [0, 0])

/-- Models `SortDirection` (src/filesystem.rs:22-26). -/
inductive SortDirection where
  | Ascending
  | Descending
deriving DecidableEq

/-- Models `FileOrder` (src/filesystem.rs:28-34); the source's spelling
`ModifedDate` is kept. -/
inductive FileOrder where
  | RecordNumber
  | Name
  | ModifedDate
  | Size
deriving DecidableEq

/-- Checked list write: models Rust `v[i] = a`, which panics (`none`) when
`i` is out of bounds. -/
def setI (l : List α) (i : Nat) (a : α) : Option (List α) :=
  if i < l.length then some (l.set i a) else none

/-- Models `Vec::swap_remove(i)`: move the last element into slot `i` and
shrink by one; panics (`none`) when `i` is out of bounds (hence on empty). -/
def swapRemove (l : List α) (i : Nat) : Option (List α) :=
  if i < l.length then
    match l.getLast? with
    | some a => some ((l.set i a).dropLast)
    | none => none
  else none

/-- Models `if let Ok(ix) = shown.binary_search(&p) { shown.remove(ix) }`
(src/filesystem.rs:91-94). On the sorted vectors the source maintains,
`binary_search` succeeds exactly when the value is present, and removing the
found index removes one occurrence of it. -/
def binRemove (shown : List Nat) (p : Nat) : List Nat :=
  if shown.contains p then shown.erase p else shown

/-- Models the position-map growth loop of `create` (src/filesystem.rs:135-137):
`while position_mapping.len() as u64 - 1 < frn { push(usize::MAX) }`.
For a non-empty map this extends it with sentinels up to index `frn`.
For an empty map the release-mode `u64` subtraction wraps to `2^64 - 1`, the
condition is false for every representable frn, and nothing is pushed. -/
def extendPM (pm : List Nat) (frn : Nat) : List Nat :=
  if pm.length = 0 then pm
  else pm ++ List.replicate (frn + 1 - pm.length) usizeMax

/-- Models `FileSystem` (src/filesystem.rs:36-54). `PathBuf` fields are lists
of path components. -/
structure FileSystem where
  position_mapping : List Nat
  frn_mapping : List Nat
  parent_mapping : List Nat
  filesizes : List Nat
  modified_dates : List (Option Nat)
  filenames : List (List Char)
  lowercase_filenames : List (List Char)
  shown : List Nat
  volume_path : List (List Char)
  order : FileOrder
  direction : SortDirection
deriving DecidableEq

namespace FileSystem

/-- Models `FileSystem::delete` (src/filesystem.rs:57-95). `none` models a
panic: indexing `position_mapping` out of bounds, or `swap_remove`/`unwrap`/
index panics in the relocation branch. The source's `filename_position ==
self.filenames.len() - 1` comparison is on wrapping `usize`; it is written
here as `filename_position + 1 = len`, which agrees with release-mode Rust
for every length including `0`. -/
def delete (fs : FileSystem) (file_id : FileId) : Option FileSystem :=
  let file_record_number := fileIdToFrn file_id
  match fs.position_mapping[file_record_number]? with
  | none => none
  | some filename_position =>
    if filename_position = usizeMax then
      some fs
    else if filename_position + 1 = fs.filenames.length then
      some { fs with
        filenames := fs.filenames.dropLast
        lowercase_filenames := fs.lowercase_filenames.dropLast
        frn_mapping := fs.frn_mapping.dropLast
        parent_mapping := fs.parent_mapping.dropLast
        position_mapping := fs.position_mapping.set file_record_number usizeMax
        shown := binRemove fs.shown filename_position }
    else
      match swapRemove fs.filenames filename_position with
      | none => none
      | some filenames =>
      match swapRemove fs.lowercase_filenames filename_position with
      | none => none
      | some lowercase_filenames =>
      match fs.frn_mapping.getLast? with
      | none => none
      | some replacement_frn =>
      match setI fs.frn_mapping.dropLast filename_position replacement_frn with
      | none => none
      | some frn_mapping =>
      match fs.parent_mapping.getLast? with
      | none => none
      | some replacement_parent_frn =>
      match setI fs.parent_mapping.dropLast filename_position replacement_parent_frn with
      | none => none
      | some parent_mapping =>
      match setI (fs.position_mapping.set file_record_number usizeMax)
          replacement_frn filename_position with
      | none => none
      | some position_mapping =>
        some { fs with
          filenames := filenames
          lowercase_filenames := lowercase_filenames
          frn_mapping := frn_mapping
          parent_mapping := parent_mapping
          position_mapping := position_mapping
          shown := binRemove fs.shown filename_position }

/-- Models `FileSystem::rename` (src/filesystem.rs:97-116). `path` is the
result of `path.file_name()`. Note the source's trailing
`parent_mapping[filename_position] = parent_record_number` runs even when the
path has no file-name component, panicking on the sentinel. -/
def rename (fs : FileSystem) (file_id parent_id : FileId) (path : Option (List Char)) :
    Option FileSystem :=
  let file_record_number := fileIdToFrn file_id
  let parent_record_number := fileIdToFrn parent_id
  match fs.position_mapping[file_record_number]? with
  | none => none
  | some filename_position =>
    match path with
    | some filename =>
      if filename_position = usizeMax then
        some fs
      else
        match setI fs.lowercase_filenames filename_position (toLowerL filename) with
        | none => none
        | some lowercase_filenames =>
        match setI fs.filenames filename_position filename with
        | none => none
        | some filenames =>
        match setI fs.parent_mapping filename_position parent_record_number with
        | none => none
        | some parent_mapping =>
          some { fs with
            lowercase_filenames := lowercase_filenames
            filenames := filenames
            parent_mapping := parent_mapping }
    | none =>
      (setI fs.parent_mapping filename_position parent_record_number).map
        fun parent_mapping => { fs with parent_mapping := parent_mapping }

/-- Models `FileSystem::create` (src/filesystem.rs:118-141). The source
pushes `filename.to_lowercase()` into BOTH `lowercase_filenames` and
`filenames` (line 129), and pushes nothing onto `filesizes` or
`modified_dates`; both behaviours are reproduced faithfully. -/
def create (fs : FileSystem) (file_id parent_id : FileId) (path : Option (List Char)) :
    Option FileSystem :=
  match path with
  | none => some fs
  | some filename =>
    -- `Vec::push` aborts the process once a vector would exceed `isize::MAX`
    -- elements; the abort is modelled as `none` like the other fatal paths.
    if isizeMax ≤ fs.filenames.length then none else
    let file_record_number := fileIdToFrn file_id
    let parent_record_number := fileIdToFrn parent_id
    let filename_position := fs.filenames.length
    let pm := extendPM fs.position_mapping file_record_number
    (setI pm file_record_number filename_position).map fun position_mapping =>
      { fs with
        lowercase_filenames := fs.lowercase_filenames ++ [toLowerL filename]
        filenames := fs.filenames ++ [toLowerL filename]
        frn_mapping := fs.frn_mapping ++ [file_record_number]
        parent_mapping := fs.parent_mapping ++ [parent_record_number]
        position_mapping := position_mapping }

/-- Models `FileSystem::update` (src/filesystem.rs:143): an empty body. -/
def update (fs : FileSystem) (_file_id _parent_id : FileId) (_path : Option (List Char)) :
    FileSystem :=
  fs

/-- The comparison `filenames[a].cmp(&filenames[b])` as a boolean "less or
equal", byte order on UTF-8 strings being code-point order. Out-of-range
positions (which panic in the source) read as the empty string; every caller
in the claims below only sorts in-range positions. -/
def strLe : (a b : List Char) → Bool
  | [], _ => true
  | _ :: _, [] => false
  | a :: as, b :: bs =>
    if a.toNat < b.toNat then true
    else if b.toNat < a.toNat then false
    else strLe as bs

/-- The name comparator of `FileSystem::sort` (src/filesystem.rs:223-232):
the ordering of the stored display names, reversed when descending. -/
def nameLe (fs : FileSystem) (a b : Nat) : Bool :=
  match fs.direction with
  | .Ascending => strLe (fs.filenames.getD a []) (fs.filenames.getD b [])
  | .Descending => strLe (fs.filenames.getD b []) (fs.filenames.getD a [])

/-- The size comparator of `FileSystem::sort` (src/filesystem.rs:234-243). -/
def sizeLe (fs : FileSystem) (a b : Nat) : Bool :=
  match fs.direction with
  | .Ascending => Nat.ble (fs.filesizes.getD a 0) (fs.filesizes.getD b 0)
  | .Descending => Nat.ble (fs.filesizes.getD b 0) (fs.filesizes.getD a 0)

/-- Models `FileSystem::sort` (src/filesystem.rs:215-247). The unstable
parallel sorts are modelled by `List.mergeSort` with the source comparators;
`FileOrder::ModifedDate` is `todo!()`, i.e. a panic (`none`). -/
def sort (fs : FileSystem) : Option FileSystem :=
  match fs.order with
  | .RecordNumber => some { fs with shown := fs.shown.mergeSort Nat.ble }
  | .Name => some { fs with shown := fs.shown.mergeSort (nameLe fs) }
  | .ModifedDate => none
  | .Size => some { fs with shown := fs.shown.mergeSort (sizeLe fs) }

/-- The full scan of `FileSystem::search` (src/filesystem.rs:179-184):
`lowercase_filenames.par_iter().enumerate().filter_map(|(i, f)|
f.contains(&query).then_some(i)).collect()` — every position whose lowercase
name contains the query, in position order. -/
def scanAll (lcs : List (List Char)) (query : List Char) : List Nat :=
  lcs.enum.filterMap fun p => if containsL p.2 query then some p.1 else none

/-- Models `FileSystem::search` (src/filesystem.rs:145-189): trim the query's
trailing whitespace, ASCII-lowercase it, collect (in position order) every
position whose lowercase name contains it, then sort. -/
def search (fs : FileSystem) (query : List Char) : Option FileSystem :=
  let query := toAsciiLowerL (trimEndL query)
  sort { fs with shown := scanAll fs.lowercase_filenames query }

/-- Models `FileSystem::search_shown` (src/filesystem.rs:191-213): re-test
only the currently shown positions. The source reads names with
`get_unchecked`; the model reads out-of-range positions as the empty string
(the source's safety comment requires `shown` to be in range). -/
def search_shown (fs : FileSystem) (query : List Char) : Option FileSystem :=
  let query := toAsciiLowerL (trimEndL query)
  let shown := fs.shown.filter
    fun i => containsL (fs.lowercase_filenames.getD i []) query
  sort { fs with shown := shown }

/-- Result of one `FileSystem::path` call: `panic` models an out-of-bounds
index panic while walking the parent chain. -/
inductive PathRes where
  | panic
  | ok (components : List (List Char))
deriving DecidableEq

/-- The parent-chain walk of `FileSystem::path` (src/filesystem.rs:254-268),
with explicit fuel for the source's unbounded `loop`; `none` means the fuel
ran out before the walk reached the root or panicked. A sentinel
`position_mapping` entry panics at `filenames[usize::MAX]`, just as the
source does. -/
def pathLoop (fs : FileSystem) : Nat → Nat → List (List Char) → Option PathRes
  | 0, _, _ => none
  | fuel + 1, filename_position, components =>
    match fs.parent_mapping[filename_position]? with
    | none => some .panic
    | some parent =>
      if parent = 5 then some (.ok components)
      else
        match fs.position_mapping[parent]? with
        | none => some .panic
        | some next_position =>
          match fs.filenames[next_position]? with
          | none => some .panic
          | some parent_filename =>
            pathLoop fs fuel next_position (components ++ [parent_filename])

/-- Models `FileSystem::path` (src/filesystem.rs:249-276): walk parent links
up to the NTFS root (inode 5), then assemble volume path plus the collected
components in reverse (root-to-leaf) order. -/
def path (fs : FileSystem) (position : Nat) (fuel : Nat) : Option PathRes :=
  (pathLoop fs fuel position []).map fun r =>
    match r with
    | .panic => .panic
    | .ok components => .ok (fs.volume_path ++ components.reverse)

end FileSystem

/-- Models the Name header click handler (src/main.rs:396-412): if already
sorted by name, flip the direction and reverse the shown vector in place
(no comparator call); otherwise set the order to Name, set the direction to
Descending, and re-sort. -/
def clickNameHeader (fs : FileSystem) : Option FileSystem :=
  if fs.order = FileOrder.Name then
    some { fs with
      direction :=
        if fs.direction = SortDirection.Ascending then SortDirection.Descending
        else SortDirection.Ascending
      shown := fs.shown.reverse }
  else
    FileSystem.sort { fs with order := FileOrder.Name, direction := SortDirection.Descending }

/-- Models the File Size header click handler (src/main.rs:431-447),
symmetric to the Name handler. -/
def clickSizeHeader (fs : FileSystem) : Option FileSystem :=
  if fs.order = FileOrder.Size then
    some { fs with
      direction :=
        if fs.direction = SortDirection.Ascending then SortDirection.Descending
        else SortDirection.Ascending
      shown := fs.shown.reverse }
  else
    FileSystem.sort { fs with order := FileOrder.Size, direction := SortDirection.Descending }

/-! ## Little-endian byte arithmetic, for the identifier codec -/

theorem leBytes_append (l₁ l₂ : List Nat) :
    leBytes (l₁ ++ l₂) = leBytes l₁ + 256 ^ l₁.length * leBytes l₂ := by
  induction l₁ with
  | nil => simp [leBytes]
  | cons b bs ih =>
    show b + 256 * leBytes (bs ++ l₂) = b + 256 * leBytes bs + 256 ^ (bs.length + 1) * leBytes l₂
    rw [ih]
    ring

theorem leBytes_lt (l : List Nat) (h : ∀ b ∈ l, b < 256) :
    leBytes l < 256 ^ l.length := by
  induction l with
  | nil => simp [leBytes]
  | cons b bs ih =>
    have hb : b < 256 := h b (List.mem_cons_self _ _)
    have hbs : leBytes bs < 256 ^ bs.length :=
      ih fun x hx => h x (List.mem_cons_of_mem _ hx)
    simp only [leBytes, List.length_cons, pow_succ]
    calc b + 256 * leBytes bs < 256 + 256 * leBytes bs := by omega
      _ = 256 * (leBytes bs + 1) := by ring
      _ ≤ 256 * 256 ^ bs.length := by
          exact Nat.mul_le_mul_left _ (by omega)
      _ = 256 ^ bs.length * 256 := by ring

/-- C6: the identifier codec is total and extracts exactly the low 48 bits of
the slot-number-carrying word: for the 64-bit form, the identifier modulo
`2^48`; for the 128-bit form, the little-endian value of the low 6 bytes,
which equals the low 48 bits of the identifier's low 64-bit word. The result
is always below `2^48`. -/
theorem c6_identifier_codec :
    (∀ n : Nat,
      fileIdToFrn (FileId.Normal n) = n % 2 ^ 48 ∧
      fileIdToFrn (FileId.Normal n) < 2 ^ 48) ∧
    (∀ e : FileId128, e.Identifier.length = 16 → (∀ b ∈ e.Identifier, b < 256) →
      fileIdToFrn (FileId.Extended e) = leBytes (e.Identifier.take 6) ∧
      fileIdToFrn (FileId.Extended e) = leBytes (e.Identifier.take 8) % 2 ^ 48 ∧
      fileIdToFrn (FileId.Extended e) < 2 ^ 48) := by
  have hmask : (0x0000FFFFFFFFFFFF : Nat) = 2 ^ 48 - 1 := by norm_num
  constructor
  · intro n
    have h1 : fileIdToFrn (FileId.Normal n) = n % 2 ^ 48 := by
      show n &&& 0x0000FFFFFFFFFFFF = n % 2 ^ 48
      rw [hmask, Nat.and_pow_two_sub_one_eq_mod]
    exact ⟨h1, h1 ▸ Nat.mod_lt _ (by norm_num)⟩
  · intro e h16 hb
    have hlow : fileIdToFrn (FileId.Extended e) = leBytes (e.Identifier.take 6) := by
      show leBytes (e.Identifier.take 6 ++ [0, 0]) = _
      rw [leBytes_append]
      norm_num [leBytes]
    have hbound : leBytes (e.Identifier.take 6) < 2 ^ 48 := by
      have hmem : ∀ b ∈ e.Identifier.take 6, b < 256 :=
        fun b hbm => hb b ((e.Identifier.take_sublist 6).mem hbm)
      have := leBytes_lt _ hmem
      have hlen : (e.Identifier.take 6).length = 6 := by
        simp [List.length_take, h16]
      rw [hlen] at this
      calc leBytes (e.Identifier.take 6) < 256 ^ 6 := this
        _ = 2 ^ 48 := by norm_num
    refine ⟨hlow, ?_, hlow ▸ hbound⟩
    have hsplit : e.Identifier.take 8 =
        e.Identifier.take 6 ++ (e.Identifier.drop 6).take 2 :=
      List.take_add e.Identifier 6 2
    have hlen : (e.Identifier.take 6).length = 6 := by
      simp [List.length_take, h16]
    rw [hsplit, leBytes_append, hlen]
    have h48 : (256 : Nat) ^ 6 = 2 ^ 48 := by norm_num
    rw [h48, Nat.add_mul_mod_self_left, Nat.mod_eq_of_lt hbound, hlow]

/-- Witness for C6 at concrete identifiers of both shapes. -/
theorem c6_identifier_codec_witness :
    fileIdToFrn (FileId.Normal (2 ^ 60 + 12345)) = (2 ^ 60 + 12345) % 2 ^ 48 ∧
    fileIdToFrn
        (FileId.Extended ⟨[1, 2, 3, 4, 5, 6, 7, 8, 9, 10, 11, 12, 13, 14, 15, 16]⟩) =
      leBytes ([1, 2, 3, 4, 5, 6, 7, 8, 9, 10, 11, 12, 13, 14, 15, 16].take 8) % 2 ^ 48 :=
  ⟨(c6_identifier_codec.1 _).1,
    (c6_identifier_codec.2 ⟨[1, 2, 3, 4, 5, 6, 7, 8, 9, 10, 11, 12, 13, 14, 15, 16]⟩
      rfl (by decide)).2.1⟩

/-- C10: `update` is a complete no-op; every field of the store — the six
parallel arrays, the Position Map, the View, the volume path, the sort key
and the direction — is left unchanged, for every input. -/
theorem c10_update_is_noop (fs : FileSystem) (file_id parent_id : FileId)
    (path : Option (List Char)) :
    fs.update file_id parent_id path = fs ∧
    (fs.update file_id parent_id path).position_mapping = fs.position_mapping ∧
    (fs.update file_id parent_id path).frn_mapping = fs.frn_mapping ∧
    (fs.update file_id parent_id path).parent_mapping = fs.parent_mapping ∧
    (fs.update file_id parent_id path).filesizes = fs.filesizes ∧
    (fs.update file_id parent_id path).modified_dates = fs.modified_dates ∧
    (fs.update file_id parent_id path).filenames = fs.filenames ∧
    (fs.update file_id parent_id path).lowercase_filenames = fs.lowercase_filenames ∧
    (fs.update file_id parent_id path).shown = fs.shown ∧
    (fs.update file_id parent_id path).volume_path = fs.volume_path ∧
    (fs.update file_id parent_id path).order = fs.order ∧
    (fs.update file_id parent_id path).direction = fs.direction :=
  ⟨rfl, rfl, rfl, rfl, rfl, rfl, rfl, rfl, rfl, rfl, rfl, rfl⟩

/-! ## Concrete stores used to evaluate the code on failing inputs -/

/-- A small consistent store: two entries, RID 1 at position 0 (name "a") and
RID 2 at position 1 (name "b"), both children of the root, all six parallel
arrays of length 2, sorted `shown` listing both positions. -/
def egStore : FileSystem := {
  position_mapping := [usizeMax, 0, 1]
  frn_mapping := [1, 2]
  parent_mapping := [5, 5]
  filesizes := [10, 20]
  modified_dates := [none, none]
  filenames := [['a'], ['b']]
  lowercase_filenames := [['a'], ['b']]
  shown := [0, 1]
  volume_path := [['C', ':']]
  order := .RecordNumber
  direction := .Descending }

/-- C2 fails on the code: starting from a store whose six parallel arrays all
have length 1, `create` appends to `filenames`, `lowercase_filenames`,
`frn_mapping` and `parent_mapping` but not to `filesizes` or
`modified_dates`, so afterwards the lengths are (2, 2, 2, 2, 1, 1): valid
position 1 has no size and no date. -/
theorem c2_create_breaks_parallel_lengths :
    (FileSystem.create
        { egStore with
          position_mapping := [usizeMax, 0]
          frn_mapping := [1]
          parent_mapping := [5]
          filesizes := [10]
          modified_dates := [none]
          filenames := [['a']]
          lowercase_filenames := [['a']]
          shown := [0] }
        (FileId.Normal 2) (FileId.Normal 5) (some ['b'])).map
      (fun fs =>
        (fs.filenames.length, fs.lowercase_filenames.length,
          fs.frn_mapping.length, fs.parent_mapping.length,
          fs.filesizes.length, fs.modified_dates.length)) =
      some (2, 2, 2, 2, 1, 1) := by decide

/-- C3 fails on the code: a `delete` or `rename` whose reduced RID lies
beyond the Position Map's current length (here RID 5 against a map of length
3) panics with an out-of-bounds index instead of being a silent no-op. -/
theorem c3_delete_rename_panic_beyond_map :
    FileSystem.delete egStore (FileId.Normal 5) = none ∧
    FileSystem.rename egStore (FileId.Normal 5) (FileId.Normal 5) (some ['x']) = none := by
  decide

/-- C5 fails on the code: deleting the non-last entry at position 0 of a
two-entry store relocates the last entry to position 0, removes position 0
from the View, but leaves the now-out-of-range position 1 in the View: the
resulting View `[1]` is not a subset of the valid positions `{0}`. -/
theorem c5_delete_leaves_dangling_view_position :
    (FileSystem.delete egStore (FileId.Normal 1)).map
      (fun fs =>
        (fs.shown, fs.filenames.length,
          decide (∀ p ∈ fs.shown, p < fs.filenames.length))) =
      some ([1], 1, false) := by decide

/-- C7 fails on the code: `create` pushes `filename.to_lowercase()` into the
display-name array as well (src/filesystem.rs:129), so creating "File" with
RID 3 stores display name "file", not the case-preserved component. -/
theorem c7_create_lowercases_display_name :
    (FileSystem.create egStore (FileId.Normal 3) (FileId.Normal 5)
        (some ['F', 'i', 'l', 'e'])).map
      (fun fs => (fs.filenames.getD 2 [], fs.lowercase_filenames.getD 2 [])) =
      some (['f', 'i', 'l', 'e'], ['f', 'i', 'l', 'e']) ∧
    (['f', 'i', 'l', 'e'] : List Char) ≠ ['F', 'i', 'l', 'e'] := by
  constructor
  · decide
  · decide

/-- C9 fails on the code: when an entry's parent RID (here 7) has a sentinel
Position Map entry, `path` indexes `filenames[usize::MAX]` and panics the
process instead of failing only that resolution; an intact chain (file at
position 1 under directory "d" at position 0) does resolve to the volume
root followed by the ancestor names in root-to-leaf order. -/
theorem c9_path_panics_on_broken_parent_chain :
    FileSystem.path
        { egStore with
          parent_mapping := [7, 5]
          position_mapping := [usizeMax, 0, 1, usizeMax, usizeMax, usizeMax,
            usizeMax, usizeMax] }
        0 10 = some FileSystem.PathRes.panic ∧
    FileSystem.path
        { egStore with
          filenames := [['d'], ['f']]
          lowercase_filenames := [['d'], ['f']]
          parent_mapping := [5, 1] }
        1 10 = some (FileSystem.PathRes.ok [['C', ':'], ['d']]) := by
  constructor
  · decide
  · decide

/-! ## List access helpers used by the invariant proofs -/

theorem getD_oob {α} (l : List α) (i : Nat) (d : α) (h : l.length ≤ i) :
    l.getD i d = d := by
  simp [List.getD_eq_getElem?_getD, List.getElem?_eq_none h]

theorem getD_set_self {α} (l : List α) (i : Nat) (v d : α) (h : i < l.length) :
    (l.set i v).getD i d = v := by
  simp [List.getD_eq_getElem?_getD, List.getElem?_set_self h]

theorem getD_set_ne {α} (l : List α) {i j : Nat} (v d : α) (h : i ≠ j) :
    (l.set i v).getD j d = l.getD j d := by
  simp [List.getD_eq_getElem?_getD, List.getElem?_set_ne h]

theorem getD_dropLast {α} (l : List α) (i : Nat) (d : α) (h : i + 1 < l.length) :
    l.dropLast.getD i d = l.getD i d := by
  simp only [List.getD_eq_getElem?_getD, List.getElem?_dropLast]
  rw [if_pos (by omega)]

theorem getD_append_left {α} (l₁ l₂ : List α) (i : Nat) (d : α) (h : i < l₁.length) :
    (l₁ ++ l₂).getD i d = l₁.getD i d := by
  simp [List.getD_eq_getElem?_getD, List.getElem?_append_left h]

theorem getD_append_at {α} (l₁ : List α) (a d : α) :
    (l₁ ++ [a]).getD l₁.length d = a := by
  simp [List.getD_eq_getElem?_getD, List.getElem?_append_right (Nat.le_refl _)]

theorem getD_of_getLast? {α} (l : List α) (a d : α) (h : l.getLast? = some a) :
    l.getD (l.length - 1) d = a := by
  rw [List.getLast?_eq_getElem?] at h
  simp [List.getD_eq_getElem?_getD, h]

/-- Extending the position map with sentinels never changes a sentinel-default
read: indices inside the old map are untouched, new and out-of-range indices
read the sentinel either way. -/
theorem getD_extendPM (pm : List Nat) (frn r : Nat) :
    (extendPM pm frn).getD r usizeMax = pm.getD r usizeMax := by
  unfold extendPM
  split
  · rfl
  · rcases Nat.lt_or_ge r pm.length with h | h
    · exact getD_append_left _ _ _ _ h
    · rw [getD_oob pm r usizeMax h]
      rcases Nat.lt_or_ge r (pm.length + (frn + 1 - pm.length)) with h2 | h2
      · simp only [List.getD_eq_getElem?_getD, List.getElem?_append_right h,
          List.getElem?_replicate]
        split <;> simp
      · refine getD_oob _ _ _ ?_
        simpa using h2

theorem length_le_extendPM (pm : List Nat) (frn : Nat) :
    pm.length ≤ (extendPM pm frn).length := by
  unfold extendPM
  split
  · exact Nat.le_refl _
  · simp

/-! ## The Position Map / Record Store invariant (C1) -/

/-- The Position Map/Record Store invariant (spec §3), over the embedding:
the RID and entry arrays run in lock-step; the store is small enough that no
occupied position collides with the sentinel (a Rust `Vec` never exceeds
`isize::MAX` elements); every occupied position `p` stores a RID whose
Position Map entry is exactly `p`; and every non-sentinel Position Map entry
is a valid position whose stored RID points back at it. The last two parts
together give the claim's iff: `position_mapping[r]` is non-sentinel exactly
when some occupied position stores `r` (reading entries beyond the map's
length as sentinel). -/
def StoreInv (fs : FileSystem) : Prop :=
  fs.frn_mapping.length = fs.filenames.length ∧
  fs.filenames.length ≤ isizeMax ∧
  (∀ p, p < fs.frn_mapping.length →
    fs.frn_mapping.getD p 0 < fs.position_mapping.length ∧
    fs.position_mapping.getD (fs.frn_mapping.getD p 0) usizeMax = p) ∧
  (∀ r, r < fs.position_mapping.length →
    fs.position_mapping.getD r usizeMax ≠ usizeMax →
    fs.position_mapping.getD r usizeMax < fs.frn_mapping.length ∧
    fs.frn_mapping.getD (fs.position_mapping.getD r usizeMax) 0 = r)

instance (fs : FileSystem) : Decidable (StoreInv fs) := by
  unfold StoreInv
  infer_instance

theorem setI_eq_some {α} {l : List α} {i : Nat} {a : α} {out : List α} :
    setI l i a = some out ↔ i < l.length ∧ out = l.set i a := by
  unfold setI
  split
  · simp_all [eq_comm]
  · simp_all

theorem swapRemove_eq_some {α} {l : List α} {i : Nat} {out : List α} :
    swapRemove l i = some out ↔
      ∃ a, l.getLast? = some a ∧ i < l.length ∧ out = (l.set i a).dropLast := by
  unfold swapRemove
  split
  · split
    · next a ha => simp_all [eq_comm]
    · simp_all
  · next h =>
    constructor
    · intro hc
      cases hc
    · rintro ⟨a, -, hi, -⟩
      exact absurd hi h

/-- `rename` preserves the Position Map/Record Store invariant. -/
theorem rename_inv {fs fs' : FileSystem} {file_id parent_id : FileId}
    {path : Option (List Char)}
    (h : fs.rename file_id parent_id path = some fs') (hI : StoreInv fs) : StoreInv fs' := by
  unfold FileSystem.rename at h
  rcases hpm : fs.position_mapping[fileIdToFrn file_id]? with - | p
  · simp [hpm] at h
  · simp only [hpm] at h
    rcases path with - | filename
    · simp only [Option.map_eq_some'] at h
      obtain ⟨pm, hset, rfl⟩ := h
      obtain ⟨-, rfl⟩ := setI_eq_some.mp hset
      exact hI
    · by_cases hs : p = usizeMax
      · simp only [hs, if_pos rfl] at h
        cases h
        exact hI
      · simp only [if_neg hs] at h
        rcases hlc : setI fs.lowercase_filenames p (toLowerL filename) with - | lc
        · simp [hlc] at h
        · simp only [hlc] at h
          rcases hfn : setI fs.filenames p filename with - | fn
          · simp [hfn] at h
          · simp only [hfn] at h
            rcases hpar : setI fs.parent_mapping p (fileIdToFrn parent_id) with - | par
            · simp [hpar] at h
            · simp only [hpar] at h
              cases h
              obtain ⟨-, rfl⟩ := setI_eq_some.mp hlc
              obtain ⟨-, rfl⟩ := setI_eq_some.mp hfn
              obtain ⟨-, rfl⟩ := setI_eq_some.mp hpar
              obtain ⟨h1, h2, h3, h4⟩ := hI
              exact ⟨by simpa using h1, by simpa using h2, h3, h4⟩

/-- `create` preserves the Position Map/Record Store invariant whenever the
created RID is fresh: its Position Map entry is sentinel (or beyond the map's
length, which reads as sentinel). -/
theorem create_inv {fs fs' : FileSystem} {file_id parent_id : FileId}
    {path : Option (List Char)}
    (h : fs.create file_id parent_id path = some fs') (hI : StoreInv fs)
    (hfresh : fs.position_mapping.getD (fileIdToFrn file_id) usizeMax = usizeMax) :
    StoreInv fs' := by
  have hsent : isizeMax < usizeMax := by norm_num [isizeMax, usizeMax]
  unfold FileSystem.create at h
  rcases path with - | filename
  · cases h
    exact hI
  · by_cases hcap : isizeMax ≤ fs.filenames.length
    · simp [hcap] at h
    · simp only [if_neg hcap, Option.map_eq_some'] at h
      obtain ⟨pmNew, hset, rfl⟩ := h
      obtain ⟨hfrnlt, rfl⟩ := setI_eq_some.mp hset
      obtain ⟨hlen, hcapI, h3, h4⟩ := hI
      refine ⟨by simp [hlen],
        by simp only [List.length_append, List.length_cons, List.length_nil]; omega, ?_, ?_⟩
      · intro p hp
        simp only [List.length_append, List.length_cons, List.length_nil] at hp
        rcases Nat.lt_or_ge p fs.frn_mapping.length with hplt | hpge
        · obtain ⟨hb, hv⟩ := h3 p hplt
          have hfne : fs.frn_mapping.getD p 0 ≠ fileIdToFrn file_id := by
            intro he
            rw [he, hfresh] at hv
            omega
          constructor
          · simp only [getD_append_left _ _ _ _ hplt, List.length_set]
            exact Nat.lt_of_lt_of_le hb (length_le_extendPM _ _)
          · rw [getD_append_left _ _ _ _ hplt,
              getD_set_ne _ _ _ (fun he => hfne he.symm), getD_extendPM]
            exact hv
        · have hpe : p = fs.frn_mapping.length := by omega
          subst hpe
          constructor
          · simp only [getD_append_at, List.length_set]
            exact hfrnlt
          · rw [getD_append_at, getD_set_self _ _ _ _ hfrnlt, hlen]
      · intro r hr hne
        simp only [List.length_set] at hr
        by_cases hrf : r = fileIdToFrn file_id
        · subst hrf
          rw [getD_set_self _ _ _ _ hfrnlt] at hne ⊢
          constructor
          · simp only [List.length_append, List.length_cons, List.length_nil]
            omega
          · rw [← hlen, getD_append_at]
        · rw [getD_set_ne _ _ _ (fun he => hrf he.symm), getD_extendPM] at hne ⊢
          rcases Nat.lt_or_ge r fs.position_mapping.length with hrlt | hrge
          · obtain ⟨hb, hv⟩ := h4 r hrlt hne
            constructor
            · simp only [List.length_append, List.length_cons, List.length_nil]
              omega
            · rw [getD_append_left _ _ _ _ hb]
              exact hv
          · rw [getD_oob _ _ _ hrge] at hne
            exact absurd rfl hne

/-- `delete` preserves the Position Map/Record Store invariant. -/
theorem delete_inv {fs fs' : FileSystem} {file_id : FileId}
    (h : fs.delete file_id = some fs') (hI : StoreInv fs) : StoreInv fs' := by
  unfold FileSystem.delete at h
  rcases hpm : fs.position_mapping[fileIdToFrn file_id]? with - | p
  · simp [hpm] at h
  · simp only [hpm] at h
    have hfrnlt : fileIdToFrn file_id < fs.position_mapping.length := by
      by_contra hc
      rw [List.getElem?_eq_none (Nat.le_of_not_lt hc)] at hpm
      cases hpm
    have hpget : fs.position_mapping.getD (fileIdToFrn file_id) usizeMax = p := by
      simp [List.getD_eq_getElem?_getD, hpm]
    by_cases hs : p = usizeMax
    · rw [if_pos hs] at h
      cases h
      exact hI
    · rw [if_neg hs] at h
      obtain ⟨hlen, hcap, h3, h4⟩ := hI
      obtain ⟨hpltn, hfmp⟩ := h4 (fileIdToFrn file_id) hfrnlt (by rw [hpget]; exact hs)
      rw [hpget] at hpltn hfmp
      by_cases hlast : p + 1 = fs.filenames.length
      · rw [if_pos hlast] at h
        cases h
        refine ⟨?_, ?_, ?_, ?_⟩
        · simp [List.length_dropLast, hlen]
        · simp only [List.length_dropLast]
          omega
        · intro q hq
          simp only [List.length_dropLast] at hq
          have hq1 : q + 1 < fs.frn_mapping.length := by omega
          rw [getD_dropLast _ _ _ hq1]
          obtain ⟨hb, hv⟩ := h3 q (by omega)
          have hfne : fs.frn_mapping.getD q 0 ≠ fileIdToFrn file_id := by
            intro he
            rw [he, hpget] at hv
            omega
          constructor
          · simpa [List.length_set] using hb
          · rw [getD_set_ne _ _ _ (fun he => hfne he.symm)]
            exact hv
        · intro r hr hne
          simp only [List.length_set] at hr
          by_cases hrf : r = fileIdToFrn file_id
          · subst hrf
            rw [getD_set_self _ _ _ _ hfrnlt] at hne
            exact absurd rfl hne
          · rw [getD_set_ne _ _ _ (fun he => hrf he.symm)] at hne ⊢
            obtain ⟨hb, hv⟩ := h4 r hr hne
            have hvne : fs.position_mapping.getD r usizeMax ≠ p := by
              intro he
              rw [he, hfmp] at hv
              exact hrf hv.symm
            constructor
            · simp only [List.length_dropLast]
              omega
            · rw [getD_dropLast _ _ _ (by omega)]
              exact hv
      · rw [if_neg hlast] at h
        rcases hsw1 : swapRemove fs.filenames p with - | fns2
        · simp [hsw1] at h
        · simp only [hsw1] at h
          rcases hsw2 : swapRemove fs.lowercase_filenames p with - | lfns2
          · simp [hsw2] at h
          · simp only [hsw2] at h
            rcases hgl1 : fs.frn_mapping.getLast? with - | rfrn
            · simp [hgl1] at h
            · simp only [hgl1] at h
              rcases hst1 : setI fs.frn_mapping.dropLast p rfrn with - | fm2
              · simp [hst1] at h
              · simp only [hst1] at h
                rcases hgl2 : fs.parent_mapping.getLast? with - | rpar
                · simp [hgl2] at h
                · simp only [hgl2] at h
                  rcases hst2 : setI fs.parent_mapping.dropLast p rpar with - | par2
                  · simp [hst2] at h
                  · simp only [hst2] at h
                    rcases hst3 : setI (fs.position_mapping.set (fileIdToFrn file_id)
                        usizeMax) rfrn p with - | pm2
                    · simp [hst3] at h
                    · simp only [hst3] at h
                      cases h
                      obtain ⟨a, -, hplen, rfl⟩ := swapRemove_eq_some.mp hsw1
                      obtain ⟨hpdl, rfl⟩ := setI_eq_some.mp hst1
                      obtain ⟨hrfl, rfl⟩ := setI_eq_some.mp hst3
                      have hrfl2 : rfrn < fs.position_mapping.length := by
                        simpa [List.length_set] using hrfl
                      have hpdl2 : p < fs.frn_mapping.length - 1 := by
                        simpa [List.length_dropLast] using hpdl
                      have hfmgl : fs.frn_mapping.getD (fs.frn_mapping.length - 1) 0 = rfrn :=
                        getD_of_getLast? _ _ _ hgl1
                      obtain ⟨hbr, hvr⟩ := h3 (fs.frn_mapping.length - 1) (by omega)
                      rw [hfmgl] at hbr hvr
                      have hplt1 : p + 1 < fs.filenames.length := by omega
                      have hfrne : fileIdToFrn file_id ≠ rfrn := by
                        intro he
                        rw [← he, hpget] at hvr
                        omega
                      refine ⟨?_, ?_, ?_, ?_⟩
                      · simp [List.length_set, List.length_dropLast, hlen]
                      · simp only [List.length_set, List.length_dropLast]
                        omega
                      · intro q hq
                        simp only [List.length_set, List.length_dropLast] at hq
                        by_cases hqp : q = p
                        · subst hqp
                          rw [getD_set_self _ _ _ _ hpdl]
                          constructor
                          · simpa [List.length_set] using hbr
                          · rw [getD_set_self _ _ _ _ hrfl]
                        · rw [getD_set_ne _ _ _ (fun he => hqp he.symm),
                            getD_dropLast _ _ _ (by omega)]
                          obtain ⟨hbq, hvq⟩ := h3 q (by omega)
                          have hne1 : fs.frn_mapping.getD q 0 ≠ rfrn := by
                            intro he
                            rw [he, hvr] at hvq
                            omega
                          have hne2 : fs.frn_mapping.getD q 0 ≠ fileIdToFrn file_id := by
                            intro he
                            rw [he, hpget] at hvq
                            exact hqp hvq.symm
                          constructor
                          · simpa [List.length_set] using hbq
                          · rw [getD_set_ne _ _ _ (fun he => hne1 he.symm),
                              getD_set_ne _ _ _ (fun he => hne2 he.symm)]
                            exact hvq
                      · intro r hr hne
                        simp only [List.length_set] at hr
                        by_cases hrr : r = rfrn
                        · subst hrr
                          rw [getD_set_self _ _ _ _ hrfl] at hne ⊢
                          constructor
                          · simp only [List.length_set, List.length_dropLast]
                            omega
                          · rw [getD_set_self _ _ _ _ hpdl]
                        · rw [getD_set_ne _ _ _ (fun he => hrr he.symm)] at hne ⊢
                          by_cases hrf : r = fileIdToFrn file_id
                          · subst hrf
                            rw [getD_set_self _ _ _ _ hfrnlt] at hne
                            exact absurd rfl hne
                          · rw [getD_set_ne _ _ _ (fun he => hrf he.symm)] at hne ⊢
                            obtain ⟨hbv, hvv⟩ := h4 r hr hne
                            have hv1 : fs.position_mapping.getD r usizeMax ≠ p := by
                              intro he
                              rw [he, hfmp] at hvv
                              exact hrf hvv.symm
                            have hv2 : fs.position_mapping.getD r usizeMax ≠
                                fs.frn_mapping.length - 1 := by
                              intro he
                              rw [he, hfmgl] at hvv
                              exact hrr hvv.symm
                            constructor
                            · simp only [List.length_set, List.length_dropLast]
                              omega
                            · rw [getD_set_ne _ _ _ (fun he => hv1 (he.symm)),
                                getD_dropLast _ _ _ (by omega)]
                              exact hvv

/-! ## Mutation traces (C1) -/

/-- One mutation event, as dispatched by the journal reader
(src/main.rs:301-329). -/
inductive MutOp where
  | createOp (file_id parent_id : FileId) (path : Option (List Char))
  | renameOp (file_id parent_id : FileId) (path : Option (List Char))
  | deleteOp (file_id : FileId)
deriving DecidableEq

/-- Apply one mutation event to the store. -/
def applyOp (fs : FileSystem) : MutOp → Option FileSystem
  | .createOp file_id parent_id path => fs.create file_id parent_id path
  | .renameOp file_id parent_id path => fs.rename file_id parent_id path
  | .deleteOp file_id => fs.delete file_id

/-- Whether an event's RID is fresh for the store it is applied to: a create
may only reuse a RID whose Position Map entry currently reads sentinel
(entries beyond the map's length read sentinel too); rename and delete have
no freshness requirement. -/
def freshOk (fs : FileSystem) : MutOp → Bool
  | .createOp file_id _ _ =>
    fs.position_mapping.getD (fileIdToFrn file_id) usizeMax == usizeMax
  | _ => true

/-- Every create in the trace is fresh for the store state it meets. -/
def FreshTrace (fs : FileSystem) : List MutOp → Bool
  | [] => true
  | op :: rest =>
    freshOk fs op &&
      match applyOp fs op with
      | none => true
      | some fs' => FreshTrace fs' rest

/-- Apply a whole trace of mutation events in order. -/
def applyTrace (fs : FileSystem) : List MutOp → Option FileSystem
  | [] => some fs
  | op :: rest => (applyOp fs op).bind fun fs' => applyTrace fs' rest

/-- C1 fails as stated: `create` does not check whether its RID is already
present. Creating RID 1 on a consistent store that already holds RID 1 at
position 0 appends a second entry with the same RID and repoints the
Position Map at it, so occupied position 0 now violates
`position_mapping[frn_mapping[0]] = 0`. -/
theorem c1_duplicate_create_breaks_invariant :
    StoreInv egStore ∧
    FileSystem.create egStore (FileId.Normal 1) (FileId.Normal 5) (some ['c']) =
      some { egStore with
        position_mapping := [usizeMax, 2, 1]
        frn_mapping := [1, 2, 1]
        parent_mapping := [5, 5, 5]
        filenames := [['a'], ['b'], ['c']]
        lowercase_filenames := [['a'], ['b'], ['c']] } ∧
    ¬ StoreInv { egStore with
        position_mapping := [usizeMax, 2, 1]
        frn_mapping := [1, 2, 1]
        parent_mapping := [5, 5, 5]
        filenames := [['a'], ['b'], ['c']]
        lowercase_filenames := [['a'], ['b'], ['c']] } := by
  refine ⟨by decide, by decide, ?_⟩
  intro hInv
  obtain ⟨-, -, h3, -⟩ := hInv
  have := (h3 0 (by decide)).2
  revert this
  decide

/-- C1 amended: for every sequence of create, rename and delete events
applied to an initially consistent store, in which every create's RID is
fresh at the moment it is applied (its Position Map entry reads sentinel),
every successfully reached state — in particular the state after each
operation, since every prefix of such a trace is such a trace — satisfies
the Position Map/Record Store invariant. Events that panic (`none`) have no
resulting state. -/
theorem c1_invariant_preserved_by_fresh_traces (ops : List MutOp)
    (fs fs' : FileSystem) (hI : StoreInv fs) (hf : FreshTrace fs ops = true)
    (h : applyTrace fs ops = some fs') : StoreInv fs' := by
  induction ops generalizing fs with
  | nil =>
    unfold applyTrace at h
    cases h
    exact hI
  | cons op rest ih =>
    unfold applyTrace at h
    unfold FreshTrace at hf
    rcases hop : applyOp fs op with - | fs1
    · simp [hop] at h
    · simp only [hop, Bool.and_eq_true] at hf h
      obtain ⟨hfr, hrest⟩ := hf
      have hI1 : StoreInv fs1 := by
        cases op with
        | createOp a b c =>
          refine create_inv hop hI ?_
          simpa [freshOk] using hfr
        | renameOp a b c => exact rename_inv hop hI
        | deleteOp a => exact delete_inv hop hI
      exact ih fs1 hI1 hrest h

/-- Witness for the amended C1: a fresh create (RID 3) followed by a delete
(RID 1) on the two-entry example store runs to completion and lands in a
state satisfying the invariant. -/
theorem c1_invariant_preserved_by_fresh_traces_witness :
    StoreInv egStore ∧
    FreshTrace egStore
      [MutOp.createOp (FileId.Normal 3) (FileId.Normal 5) (some ['c']),
        MutOp.deleteOp (FileId.Normal 1)] = true ∧
    applyTrace egStore
      [MutOp.createOp (FileId.Normal 3) (FileId.Normal 5) (some ['c']),
        MutOp.deleteOp (FileId.Normal 1)] =
      some { egStore with
        position_mapping := [usizeMax, usizeMax, 1, 0]
        frn_mapping := [3, 2]
        parent_mapping := [5, 5]
        filenames := [['c'], ['b']]
        lowercase_filenames := [['c'], ['b']]
        shown := [1] } ∧
    StoreInv { egStore with
        position_mapping := [usizeMax, usizeMax, 1, 0]
        frn_mapping := [3, 2]
        parent_mapping := [5, 5]
        filenames := [['c'], ['b']]
        lowercase_filenames := [['c'], ['b']]
        shown := [1] } :=
  ⟨by decide, by decide, by decide,
    c1_invariant_preserved_by_fresh_traces
      [MutOp.createOp (FileId.Normal 3) (FileId.Normal 5) (some ['c']),
        MutOp.deleteOp (FileId.Normal 1)]
      egStore _ (by decide) (by decide) (by decide)⟩

/-! ## Substring search lemmas (C4) -/

theorem startsWithL_iff (q s : List Char) :
    startsWithL q s = true ↔ ∃ t, s = q ++ t := by
  induction q generalizing s with
  | nil => simp [startsWithL]
  | cons a as ih =>
    cases s with
    | nil =>
      simp only [startsWithL]
      constructor
      · intro hc
        cases hc
      · rintro ⟨t, ht⟩
        cases ht
    | cons b bs =>
      simp only [startsWithL]
      by_cases hab : a = b
      · subst hab
        rw [if_pos rfl, ih]
        constructor
        · rintro ⟨t, rfl⟩
          exact ⟨t, rfl⟩
        · rintro ⟨t, ht⟩
          obtain ⟨-, rfl⟩ := List.cons.inj ht
          exact ⟨t, rfl⟩
      · rw [if_neg hab]
        constructor
        · intro hc
          cases hc
        · rintro ⟨t, ht⟩
          obtain ⟨rfl, -⟩ := List.cons.inj ht
          exact absurd rfl hab

theorem containsL_iff (s q : List Char) :
    containsL s q = true ↔ ∃ l r, s = l ++ q ++ r := by
  induction s with
  | nil =>
    rw [containsL]
    simp only [Bool.or_false, startsWithL_iff]
    constructor
    · rintro ⟨t, ht⟩
      exact ⟨[], t, by simpa using ht⟩
    · rintro ⟨l, r, h⟩
      rcases l with - | ⟨x, l⟩
      · exact ⟨r, by simpa using h⟩
      · cases h
  | cons b bs ih =>
    rw [containsL]
    simp only [Bool.or_eq_true, startsWithL_iff, ih]
    constructor
    · rintro (⟨t, ht⟩ | ⟨l, r, hr⟩)
      · exact ⟨[], t, by simpa using ht⟩
      · exact ⟨b :: l, r, by simp [hr]⟩
    · rintro ⟨l, r, h⟩
      rcases l with - | ⟨x, l⟩
      · exact Or.inl ⟨r, by simpa using h⟩
      · obtain ⟨rfl, h2⟩ := List.cons.inj h
        exact Or.inr ⟨l, r, h2⟩

/-- Substring containment is transitive: if `q1` occurs in `q2` and `q2`
occurs in `s`, then `q1` occurs in `s`. -/
theorem containsL_trans {s q1 q2 : List Char} (h12 : containsL q2 q1 = true)
    (h2s : containsL s q2 = true) : containsL s q1 = true := by
  rw [containsL_iff] at h12 h2s ⊢
  obtain ⟨l1, r1, rfl⟩ := h12
  obtain ⟨l2, r2, h⟩ := h2s
  exact ⟨l2 ++ l1, r1 ++ r2, by simp [h]⟩

/-! ## Comparator properties (C4, C8) -/

theorem strLe_total (a b : List Char) :
    (FileSystem.strLe a b || FileSystem.strLe b a) = true := by
  induction a generalizing b with
  | nil => simp [FileSystem.strLe]
  | cons x xs ih =>
    cases b with
    | nil => simp [FileSystem.strLe]
    | cons y ys =>
      simp only [FileSystem.strLe]
      rcases Nat.lt_trichotomy x.toNat y.toNat with h | h | h
      · simp [if_pos h]
      · rw [if_neg (by omega), if_neg (by omega), if_neg (by omega), if_neg (by omega)]
        exact ih ys
      · simp [if_pos h]

theorem strLe_trans {a b c : List Char} (hab : FileSystem.strLe a b = true)
    (hbc : FileSystem.strLe b c = true) : FileSystem.strLe a c = true := by
  induction a generalizing b c with
  | nil => simp [FileSystem.strLe]
  | cons x xs ih =>
    cases b with
    | nil => cases hab
    | cons y ys =>
      cases c with
      | nil => cases hbc
      | cons z zs =>
        simp only [FileSystem.strLe] at hab hbc ⊢
        rcases Nat.lt_trichotomy x.toNat y.toNat with h1 | h1 | h1
        · rcases Nat.lt_trichotomy y.toNat z.toNat with h2 | h2 | h2
          · rw [if_pos (by omega)]
          · rw [if_pos (by omega)]
          · rw [if_neg (by omega), if_pos (by omega)] at hbc
            cases hbc
        · rcases Nat.lt_trichotomy y.toNat z.toNat with h2 | h2 | h2
          · rw [if_pos (by omega)]
          · rw [if_neg (by omega), if_neg (by omega)] at hab hbc ⊢
            exact ih hab hbc
          · rw [if_neg (by omega), if_pos (by omega)] at hbc
            cases hbc
        · rw [if_neg (by omega), if_pos (by omega)] at hab
          cases hab

theorem ble_trans : ∀ a b c : Nat, Nat.ble a b = true → Nat.ble b c = true →
    Nat.ble a c = true := by
  intro a b c hab hbc
  rw [Nat.ble_eq] at *
  omega

theorem ble_total (a b : Nat) : (Nat.ble a b || Nat.ble b a) = true := by
  rcases Nat.le_total a b with h | h <;> simp [Nat.ble_eq, h]

/-! ## Stability of the modelled sort (C4) -/

/-- Two decompositions of one list into a "false block" followed by a "true
block" (under a boolean classifier) coincide. -/
theorem append_partition_unique {α} {q : α → Bool} :
    ∀ {A B C D : List α}, A ++ B = C ++ D →
      (∀ b ∈ A, q b = false) → (∀ b ∈ B, q b = true) →
      (∀ b ∈ C, q b = false) → (∀ b ∈ D, q b = true) →
      A = C ∧ B = D := by
  intro A
  induction A with
  | nil =>
    intro B C D h hA hB hC hD
    cases C with
    | nil => exact ⟨rfl, h⟩
    | cons c C' =>
      exfalso
      have hcB : c ∈ B := by
        rw [List.nil_append] at h
        rw [h]
        simp
      have := hB c hcB
      have := hC c (List.mem_cons_self _ _)
      simp_all
  | cons a A' ih =>
    intro B C D h hA hB hC hD
    cases C with
    | nil =>
      exfalso
      have haD : a ∈ D := by
        rw [List.nil_append] at h
        rw [← h]
        simp
      have := hD a haD
      have := hA a (List.mem_cons_self _ _)
      simp_all
    | cons c C' =>
      simp only [List.cons_append, List.cons.injEq] at h
      obtain ⟨rfl, h2⟩ := h
      obtain ⟨hAC, hBD⟩ := ih h2 (fun b hb => hA b (List.mem_cons_of_mem _ hb)) hB
        (fun b hb => hC b (List.mem_cons_of_mem _ hb)) hD
      exact ⟨by rw [hAC], hBD⟩

/-- Filtering commutes with the modelled (stable) sort: filtering after
sorting equals sorting the filtered list. -/
theorem filter_mergeSort_comm {α} (le : α → α → Bool)
    (htrans : ∀ a b c, le a b = true → le b c = true → le a c = true)
    (htot : ∀ a b, (le a b || le b a) = true)
    (p : α → Bool) :
    ∀ l : List α, (l.mergeSort le).filter p = (l.filter p).mergeSort le := by
  intro l
  induction l with
  | nil => simp
  | cons a l ih =>
    obtain ⟨l₁, l₂, h1, h2, h3⟩ := List.mergeSort_cons htrans htot a l
    have hpair : (l₁ ++ a :: l₂).Pairwise (le · ·) := by
      rw [← h1]
      exact List.sorted_mergeSort htrans htot (a :: l)
    have hl₂ : ∀ b ∈ l₂, le a b = true :=
      (List.pairwise_cons.mp (List.pairwise_append.mp hpair).2.1).1
    have hl₁ : ∀ b ∈ l₁, le a b = false := by
      intro b hb
      have := h3 b hb
      simp_all
    by_cases hpa : p a = true
    · rw [h1, List.filter_append, List.filter_cons_of_pos hpa]
      rw [List.filter_cons_of_pos hpa]
      obtain ⟨m₁, m₂, g1, g2, g3⟩ := List.mergeSort_cons htrans htot a (l.filter p)
      have gpair : (m₁ ++ a :: m₂).Pairwise (le · ·) := by
        rw [← g1]
        exact List.sorted_mergeSort htrans htot (a :: l.filter p)
      have hm₂ : ∀ b ∈ m₂, le a b = true :=
        (List.pairwise_cons.mp (List.pairwise_append.mp gpair).2.1).1
      have hm₁ : ∀ b ∈ m₁, le a b = false := by
        intro b hb
        have := g3 b hb
        simp_all
      have hmerge : l₁.filter p ++ l₂.filter p = m₁ ++ m₂ := by
        rw [← List.filter_append, ← h2, ih, g2]
      obtain ⟨hfl, hfr⟩ :=
        append_partition_unique (q := fun b => le a b) hmerge
          (fun b hb => hl₁ b (List.mem_of_mem_filter hb))
          (fun b hb => hl₂ b (List.mem_of_mem_filter hb))
          hm₁ hm₂
      rw [g1, hfl, hfr]
    · rw [h1, List.filter_append, List.filter_cons_of_neg (by simpa using hpa)]
      rw [List.filter_cons_of_neg (by simpa using hpa), ← List.filter_append, ← h2, ih]

/-- The full scan collects exactly the in-range positions whose lowercase
name contains the query, in increasing position order. -/
theorem scanAll_eq_filter_range (lcs : List (List Char)) (q : List Char) :
    FileSystem.scanAll lcs q =
      (List.range lcs.length).filter fun i => containsL (lcs.getD i []) q := by
  induction lcs with
  | nil => rfl
  | cons x xs ih =>
    rw [FileSystem.scanAll, List.enum_cons', List.filterMap_cons, List.filterMap_map]
    have hcomp : ((fun p : Nat × List Char => if containsL p.2 q then some p.1 else none) ∘
        Prod.map (· + 1) id) = fun p : Nat × List Char =>
          (if containsL p.2 q then some p.1 else none).map (· + 1) := by
      funext p
      rcases p with ⟨i, s⟩
      by_cases hc : containsL s q <;> simp [Prod.map, hc]
    rw [hcomp, ← List.map_filterMap]
    have hxs : (xs.enum.filterMap fun p => if containsL p.2 q then some p.1 else none) =
        FileSystem.scanAll xs q := rfl
    rw [hxs, ih, List.length_cons, List.range_succ_eq_map, List.filter_cons, List.filter_map]
    simp only [List.getD_cons_zero, List.getD_cons_succ, Function.comp_def,
      Nat.succ_eq_add_one]
    by_cases hc : containsL x q <;> simp [hc]

theorem nameLe_set_shown (fs : FileSystem) (s : List Nat) :
    FileSystem.nameLe { fs with shown := s } = FileSystem.nameLe fs := rfl

theorem sizeLe_set_shown (fs : FileSystem) (s : List Nat) :
    FileSystem.sizeLe { fs with shown := s } = FileSystem.sizeLe fs := rfl

theorem nameLe_trans (fs : FileSystem) : ∀ a b c,
    FileSystem.nameLe fs a b = true → FileSystem.nameLe fs b c = true →
    FileSystem.nameLe fs a c = true := by
  intro a b c h1 h2
  unfold FileSystem.nameLe at *
  cases hdir : fs.direction <;> rw [hdir] at h1 h2
  · exact strLe_trans h1 h2
  · exact strLe_trans h2 h1

theorem nameLe_total (fs : FileSystem) : ∀ a b,
    (FileSystem.nameLe fs a b || FileSystem.nameLe fs b a) = true := by
  intro a b
  unfold FileSystem.nameLe
  cases hdir : fs.direction
  · exact strLe_total _ _
  · exact strLe_total _ _

theorem sizeLe_trans (fs : FileSystem) : ∀ a b c,
    FileSystem.sizeLe fs a b = true → FileSystem.sizeLe fs b c = true →
    FileSystem.sizeLe fs a c = true := by
  intro a b c h1 h2
  unfold FileSystem.sizeLe at *
  cases hdir : fs.direction <;> rw [hdir] at h1 h2
  · exact ble_trans _ _ _ h1 h2
  · exact ble_trans _ _ _ h2 h1

theorem sizeLe_total (fs : FileSystem) : ∀ a b,
    (FileSystem.sizeLe fs a b || FileSystem.sizeLe fs b a) = true := by
  intro a b
  unfold FileSystem.sizeLe
  cases hdir : fs.direction
  · exact ble_total _ _
  · exact ble_total _ _

/-- The core of the refinement equivalence: re-filtering the sorted full-scan
result by the refined query and re-sorting gives exactly the sorted full scan
for the refined query, for any total transitive comparator. -/
theorem refine_chain (lcs : List (List Char)) (le : Nat → Nat → Bool)
    (htrans : ∀ a b c, le a b = true → le b c = true → le a c = true)
    (htot : ∀ a b, (le a b || le b a) = true)
    {q1 q2 : List Char}
    (himp : ∀ s, containsL s q2 = true → containsL s q1 = true) :
    (((FileSystem.scanAll lcs q1).mergeSort le).filter
        fun i => containsL (lcs.getD i []) q2).mergeSort le
      = (FileSystem.scanAll lcs q2).mergeSort le := by
  rw [filter_mergeSort_comm le htrans htot]
  rw [List.mergeSort_of_sorted (List.sorted_mergeSort htrans htot _)]
  congr 1
  rw [scanAll_eq_filter_range, scanAll_eq_filter_range, List.filter_filter]
  apply List.filter_congr
  intro i hi
  by_cases h2 : containsL (lcs.getD i []) q2 = true
  · rw [h2, himp _ h2]
    rfl
  · have h2f : containsL (lcs.getD i []) q2 = false := by
      revert h2
      cases containsL (lcs.getD i []) q2 <;> simp
    rw [h2f]
    rfl

/-- C4: if the current View is exactly the result of `search(prev)`, and the
trimmed case-folded previous query is a substring of the trimmed case-folded
new query, then `search_shown(new)` produces the same store — in particular
the same View — as running `search(new)` over the full store. -/
theorem c4_search_refine_matches_full_search (fs fs1 : FileSystem)
    (prev newq : List Char)
    (h1 : fs.search prev = some fs1)
    (h2 : containsL (toAsciiLowerL (trimEndL newq))
      (toAsciiLowerL (trimEndL prev)) = true) :
    fs1.search_shown newq = fs1.search newq := by
  have himp : ∀ s, containsL s (toAsciiLowerL (trimEndL newq)) = true →
      containsL s (toAsciiLowerL (trimEndL prev)) = true :=
    fun s hs => containsL_trans h2 hs
  unfold FileSystem.search FileSystem.sort at h1
  rcases horder : fs.order with - | - | - | -
  · simp only [horder, Option.some.injEq] at h1
    have hlc : fs1.lowercase_filenames = fs.lowercase_filenames := by rw [← h1]
    have hord1 : fs1.order = FileOrder.RecordNumber := by rw [← h1]
    have hshown : fs1.shown = (FileSystem.scanAll fs.lowercase_filenames
        (toAsciiLowerL (trimEndL prev))).mergeSort Nat.ble := by
      rw [← h1]
    unfold FileSystem.search_shown FileSystem.search FileSystem.sort
    simp only [hord1]
    simp only [hlc, hshown]
    rw [refine_chain fs.lowercase_filenames Nat.ble ble_trans ble_total himp]
  · simp only [horder, Option.some.injEq] at h1
    have hlc : fs1.lowercase_filenames = fs.lowercase_filenames := by rw [← h1]
    have hord1 : fs1.order = FileOrder.Name := by rw [← h1]
    have hshown : fs1.shown = (FileSystem.scanAll fs.lowercase_filenames
        (toAsciiLowerL (trimEndL prev))).mergeSort (FileSystem.nameLe fs1) := by
      rw [← h1]
      rfl
    unfold FileSystem.search_shown FileSystem.search FileSystem.sort
    simp only [nameLe_set_shown]
    simp only [hord1]
    simp only [hlc, hshown]
    rw [refine_chain fs.lowercase_filenames (FileSystem.nameLe fs1)
      (nameLe_trans fs1) (nameLe_total fs1) himp]
  · simp only [horder] at h1
    cases h1
  · simp only [horder, Option.some.injEq] at h1
    have hlc : fs1.lowercase_filenames = fs.lowercase_filenames := by rw [← h1]
    have hord1 : fs1.order = FileOrder.Size := by rw [← h1]
    have hshown : fs1.shown = (FileSystem.scanAll fs.lowercase_filenames
        (toAsciiLowerL (trimEndL prev))).mergeSort (FileSystem.sizeLe fs1) := by
      rw [← h1]
      rfl
    unfold FileSystem.search_shown FileSystem.search FileSystem.sort
    simp only [sizeLe_set_shown]
    simp only [hord1]
    simp only [hlc, hshown]
    rw [refine_chain fs.lowercase_filenames (FileSystem.sizeLe fs1)
      (sizeLe_trans fs1) (sizeLe_total fs1) himp]

/-- Witness for C4: searching "a" over the example store yields the View
`[0]`; refining to "ab" (which contains "a") through `search_shown` agrees
with a full `search` for "ab". -/
theorem c4_search_refine_matches_full_search_witness :
    egStore.search ['a'] = some { egStore with shown := [0] } ∧
    containsL (toAsciiLowerL (trimEndL ['a', 'b'])) (toAsciiLowerL (trimEndL ['a'])) = true ∧
    FileSystem.search_shown { egStore with shown := [0] } ['a', 'b'] =
      FileSystem.search { egStore with shown := [0] } ['a', 'b'] := by
  have hscan : FileSystem.scanAll egStore.lowercase_filenames
      (toAsciiLowerL (trimEndL ['a'])) = [0] := by decide
  have h1 : egStore.search ['a'] = some { egStore with shown := [0] } := by
    have hstep : egStore.search ['a'] =
        FileSystem.sort { egStore with shown := ([0] : List Nat) } := by
      rw [← hscan]
      rfl
    have hsort : FileSystem.sort { egStore with shown := ([0] : List Nat) } =
        some { egStore with shown := ([0] : List Nat).mergeSort Nat.ble } := rfl
    rw [hstep, hsort, List.mergeSort_singleton]
  exact ⟨h1, by decide,
    c4_search_refine_matches_full_search egStore _ ['a'] ['a', 'b'] h1 (by decide)⟩

/-! ## Sort-header click behaviour (C8) -/

/-- Example store for the sort-header claims: currently sorted by Size
ascending, with an empty View. -/
def egC8 : FileSystem := { egStore with
  order := FileOrder.Size
  direction := SortDirection.Ascending
  shown := [] }

/-- The target state of a key change to Name on `egC8`. -/
def egC8N : FileSystem := { egC8 with
  order := FileOrder.Name
  direction := SortDirection.Descending }

/-- Example store already sorted by name. -/
def egC8name : FileSystem := { egStore with
  order := FileOrder.Name
  direction := SortDirection.Descending }

/-- Evaluating `sort` on a store whose order is Name. -/
theorem sort_name_eval (g : FileSystem) (h : g.order = FileOrder.Name) :
    FileSystem.sort g =
      some { g with shown := g.shown.mergeSort (FileSystem.nameLe g) } := by
  unfold FileSystem.sort
  rw [h]

/-- Evaluation helper: clicking the Name header on `egC8` sets order Name and
direction Descending, then re-sorts the (empty) View. -/
theorem clickName_egC8_eval : clickNameHeader egC8 = some egC8N := by
  have h1 : clickNameHeader egC8 = FileSystem.sort egC8N := by
    unfold clickNameHeader
    rw [if_neg (by decide)]
    rfl
  have hs : egC8N.shown = [] := rfl
  rw [h1, sort_name_eval egC8N rfl, hs, List.mergeSort_nil]
  rfl

/-- C8 fails as stated: when the key changes, the direction is not preserved
but reset. Clicking the Name header while sorted by Size ascending leaves
the store sorted by Name descending — the direction was altered by the key
change. -/
theorem c8_key_change_resets_direction :
    egC8.direction = SortDirection.Ascending ∧
    clickNameHeader egC8 = some egC8N ∧
    egC8N.direction = SortDirection.Descending ∧
    SortDirection.Descending ≠ SortDirection.Ascending :=
  ⟨rfl, clickName_egC8_eval, rfl, by decide⟩

/-- Example store with an empty View sorted by record number, used for a
key change to Size. -/
def egC8R : FileSystem := { egC8 with order := FileOrder.RecordNumber }

/-- The target state of a key change to Size on `egC8R`. -/
def egC8S : FileSystem := { egC8 with direction := SortDirection.Descending }

/-- Evaluating `sort` on a store whose order is Size. -/
theorem sort_size_eval (g : FileSystem) (h : g.order = FileOrder.Size) :
    FileSystem.sort g =
      some { g with shown := g.shown.mergeSort (FileSystem.sizeLe g) } := by
  unfold FileSystem.sort
  rw [h]

/-- Evaluation helper: clicking the File Size header on `egC8R` sets order
Size and direction Descending, then re-sorts the (empty) View. -/
theorem clickSize_egC8R_eval : clickSizeHeader egC8R = some egC8S := by
  have h1 : clickSizeHeader egC8R = FileSystem.sort egC8S := by
    unfold clickSizeHeader
    rw [if_neg (by decide)]
    rfl
  have hs : egC8S.shown = [] := rfl
  rw [h1, sort_size_eval egC8S rfl, hs, List.mergeSort_nil]
  rfl

/-- C8 amended, for both sort headers (Name, main.rs:396-412, and File Size,
main.rs:431-447): toggling the direction while the key is unchanged reverses
the existing View in place — the new View is exactly the reverse sequence,
no comparator is re-run, the key is unchanged, only the direction flips, and
a View sorted for the old comparator stays sorted for the flipped one.
Changing the key, however, sets the direction to Descending (it does not
keep the View's current direction) and fully re-sorts: the new View is a
permutation of the old one, sorted by the new key's descending comparator. -/
theorem c8_toggle_reverses_and_key_change_resorts (fs fs' : FileSystem) :
    (fs.order = FileOrder.Name → clickNameHeader fs = some fs' →
      fs'.shown = fs.shown.reverse ∧
      fs'.order = fs.order ∧
      fs'.direction = (if fs.direction = SortDirection.Ascending then
        SortDirection.Descending else SortDirection.Ascending) ∧
      (fs.shown.Pairwise (fun a b => FileSystem.nameLe fs a b = true) →
        fs'.shown.Pairwise (fun a b => FileSystem.nameLe fs' a b = true))) ∧
    (fs.order ≠ FileOrder.Name → clickNameHeader fs = some fs' →
      fs'.order = FileOrder.Name ∧
      fs'.direction = SortDirection.Descending ∧
      fs'.shown.Perm fs.shown ∧
      fs'.shown.Pairwise (fun a b => FileSystem.nameLe fs' a b = true)) ∧
    (fs.order = FileOrder.Size → clickSizeHeader fs = some fs' →
      fs'.shown = fs.shown.reverse ∧
      fs'.order = fs.order ∧
      fs'.direction = (if fs.direction = SortDirection.Ascending then
        SortDirection.Descending else SortDirection.Ascending) ∧
      (fs.shown.Pairwise (fun a b => FileSystem.sizeLe fs a b = true) →
        fs'.shown.Pairwise (fun a b => FileSystem.sizeLe fs' a b = true))) ∧
    (fs.order ≠ FileOrder.Size → clickSizeHeader fs = some fs' →
      fs'.order = FileOrder.Size ∧
      fs'.direction = SortDirection.Descending ∧
      fs'.shown.Perm fs.shown ∧
      fs'.shown.Pairwise (fun a b => FileSystem.sizeLe fs' a b = true)) := by
  refine ⟨?_, ?_, ?_, ?_⟩
  · intro horder h
    unfold clickNameHeader at h
    rw [if_pos horder, Option.some.injEq] at h
    have hshown : fs'.shown = fs.shown.reverse := by rw [← h]
    have hord : fs'.order = fs.order := by rw [← h]
    have hdir : fs'.direction = (if fs.direction = SortDirection.Ascending then
        SortDirection.Descending else SortDirection.Ascending) := by rw [← h]
    have hfn : fs'.filenames = fs.filenames := by rw [← h]
    refine ⟨hshown, hord, hdir, ?_⟩
    intro hsorted
    rw [hshown, List.pairwise_reverse]
    refine hsorted.imp ?_
    intro a b hab
    unfold FileSystem.nameLe at hab ⊢
    rw [hfn, hdir]
    cases hdirv : fs.direction <;> rw [hdirv] at hab
    · rw [if_pos rfl]
      exact hab
    · rw [if_neg (by decide)]
      exact hab
  · intro horder h
    unfold clickNameHeader at h
    rw [if_neg horder] at h
    rw [sort_name_eval _ rfl, Option.some.injEq] at h
    have hord : fs'.order = FileOrder.Name := by rw [← h]
    have hdir : fs'.direction = SortDirection.Descending := by rw [← h]
    have hshown : fs'.shown = fs.shown.mergeSort (FileSystem.nameLe fs') := by
      rw [← h]
      rfl
    refine ⟨hord, hdir, ?_, ?_⟩
    · rw [hshown]
      exact List.mergeSort_perm _ _
    · rw [hshown]
      exact List.sorted_mergeSort (nameLe_trans fs') (nameLe_total fs') _
  · intro horder h
    unfold clickSizeHeader at h
    rw [if_pos horder, Option.some.injEq] at h
    have hshown : fs'.shown = fs.shown.reverse := by rw [← h]
    have hord : fs'.order = fs.order := by rw [← h]
    have hdir : fs'.direction = (if fs.direction = SortDirection.Ascending then
        SortDirection.Descending else SortDirection.Ascending) := by rw [← h]
    have hsz : fs'.filesizes = fs.filesizes := by rw [← h]
    refine ⟨hshown, hord, hdir, ?_⟩
    intro hsorted
    rw [hshown, List.pairwise_reverse]
    refine hsorted.imp ?_
    intro a b hab
    unfold FileSystem.sizeLe at hab ⊢
    rw [hsz, hdir]
    cases hdirv : fs.direction <;> rw [hdirv] at hab
    · rw [if_pos rfl]
      exact hab
    · rw [if_neg (by decide)]
      exact hab
  · intro horder h
    unfold clickSizeHeader at h
    rw [if_neg horder] at h
    rw [sort_size_eval _ rfl, Option.some.injEq] at h
    have hord : fs'.order = FileOrder.Size := by rw [← h]
    have hdir : fs'.direction = SortDirection.Descending := by rw [← h]
    have hshown : fs'.shown = fs.shown.mergeSort (FileSystem.sizeLe fs') := by
      rw [← h]
      rfl
    refine ⟨hord, hdir, ?_, ?_⟩
    · rw [hshown]
      exact List.mergeSort_perm _ _
    · rw [hshown]
      exact List.sorted_mergeSort (sizeLe_trans fs') (sizeLe_total fs') _

/-- Witness for the amended C8 at all four branches: toggling on a
name-sorted store and on a size-sorted store reverses the View; a key change
to Name from Size, and to Size from record order, lands on the new key with
direction Descending and a sorted permutation of the old View. -/
theorem c8_toggle_reverses_and_key_change_resorts_witness :
    clickNameHeader egC8name =
      some { egC8name with direction := SortDirection.Ascending, shown := [1, 0] } ∧
    ({ egC8name with direction := SortDirection.Ascending, shown := [1, 0] } :
        FileSystem).shown = egC8name.shown.reverse ∧
    egC8N.direction = SortDirection.Descending ∧
    egC8N.shown.Perm egC8.shown ∧
    egC8N.shown.Pairwise (fun a b => FileSystem.nameLe egC8N a b = true) ∧
    clickSizeHeader egC8 = some { egC8 with direction := SortDirection.Descending } ∧
    ({ egC8 with direction := SortDirection.Descending } : FileSystem).shown =
      egC8.shown.reverse ∧
    egC8S.order = FileOrder.Size ∧
    egC8S.direction = SortDirection.Descending ∧
    egC8S.shown.Perm egC8R.shown ∧
    egC8S.shown.Pairwise (fun a b => FileSystem.sizeLe egC8S a b = true) := by
  have hEvN : clickNameHeader egC8name =
      some { egC8name with direction := SortDirection.Ascending, shown := [1, 0] } := by
    decide
  have hEvS : clickSizeHeader egC8 =
      some { egC8 with direction := SortDirection.Descending } := by
    decide
  refine ⟨hEvN, ?_, ?_, ?_, ?_, hEvS, ?_, ?_, ?_, ?_, ?_⟩
  · exact ((c8_toggle_reverses_and_key_change_resorts egC8name _).1 rfl hEvN).1
  · exact ((c8_toggle_reverses_and_key_change_resorts egC8 egC8N).2.1
      (by decide) clickName_egC8_eval).2.1
  · exact ((c8_toggle_reverses_and_key_change_resorts egC8 egC8N).2.1
      (by decide) clickName_egC8_eval).2.2.1
  · exact ((c8_toggle_reverses_and_key_change_resorts egC8 egC8N).2.1
      (by decide) clickName_egC8_eval).2.2.2
  · exact ((c8_toggle_reverses_and_key_change_resorts egC8 _).2.2.1 rfl hEvS).1
  · exact ((c8_toggle_reverses_and_key_change_resorts egC8R egC8S).2.2.2
      (by decide) clickSize_egC8R_eval).1
  · exact ((c8_toggle_reverses_and_key_change_resorts egC8R egC8S).2.2.2
      (by decide) clickSize_egC8R_eval).2.1
  · exact ((c8_toggle_reverses_and_key_change_resorts egC8R egC8S).2.2.2
      (by decide) clickSize_egC8R_eval).2.2.1
  · exact ((c8_toggle_reverses_and_key_change_resorts egC8R egC8S).2.2.2
      (by decide) clickSize_egC8R_eval).2.2.2
